import Mathlib

/-!
Verification of the vector-store core of the research-board repository.

The embedding models, over exact rationals (for the faiss index side) and
reals (for the cosine-similarity side), the following source functions:

- app/vector_store.py: class FaissIndex with methods add, build_from_db,
  search, save_index, load_index, and the module-level construction of the
  shared instance.
- app/crud.py: semantic_search (the similarity search actually used by the
  HTTP routes) and add_embedding.
- app/api/routes.py: add_page_embedding (the insertion route).

Machine floats are idealised as exact numbers; python ints are Nat or Int;
python exceptions are Option or Except results; a python dict is an
insertion-ordered association list whose insert overwrites an existing key
and appends a fresh one.
-/

/-- Python dict assignment on an insertion-ordered association list:
overwrite the entry when the key is present, append it otherwise. -/
def dictInsert (m : List (Nat × Nat)) (k v : Nat) : List (Nat × Nat) :=
  if m.any (fun p => p.1 == k) then
    m.map (fun p => if p.1 == k then (k, v) else p)
  else m ++ [(k, v)]

/-- Python dict.get: the value at the first (unique) matching key, or none. -/
def dictGet (m : List (Nat × Nat)) (k : Nat) : Option Nat :=
  (m.find? (fun p => p.1 == k)).map (fun p => p.2)

/-- Modelled from the external faiss library: an IndexFlatL2 object holds its
dimension d and the inserted vectors in slot order (ntotal is the list length). -/
structure FlatIndex where
  d : Nat
  xb : List (List ℚ)
deriving DecidableEq

/-- Squared Euclidean distance, the metric of faiss IndexFlatL2. -/
def sqDist (q v : List ℚ) : ℚ :=
  (List.zipWith (fun a b => (a - b) ^ 2) q v).sum

/-- Insert a (slot, distance) pair into a list sorted ascending by distance,
with ties broken by the smaller slot. -/
def insAsc (x : Nat × ℚ) : List (Nat × ℚ) → List (Nat × ℚ)
  | [] => [x]
  | y :: ys =>
    if x.2 < y.2 ∨ (x.2 = y.2 ∧ x.1 < y.1) then x :: y :: ys else y :: insAsc x ys

/-- Sort (slot, distance) pairs ascending by distance, ties by slot. -/
def sortDists (l : List (Nat × ℚ)) : List (Nat × ℚ) := l.foldr insAsc []

/-- Modelled from the external faiss library: IndexFlatL2.search through the
python wrapper. The wrapper asserts that the query width equals the index
dimension and that k is positive (a failed assertion raises, modelled as none);
the exhaustive scan then returns the k smallest squared-L2 distances in
ascending order, and when fewer than k vectors are stored the remaining
entries carry the sentinel slot -1. -/
def faissSearch (idx : FlatIndex) (q : List ℚ) (k : Int) : Option (List (Int × ℚ)) :=
  if q.length ≠ idx.d then none
  else if k ≤ 0 then none
  else some
    ((((sortDists ((List.range idx.xb.length).map
        (fun i => (i, sqDist q (idx.xb.getD i []))))).take
          (min k.toNat idx.xb.length)).map (fun p => ((p.1 : Int), p.2))) ++
      List.replicate (k.toNat - idx.xb.length) ((-1 : Int), 0))

/-- Modelled from the external faiss library: IndexFlatL2.add of a single row,
which asserts that the row width equals the index dimension and otherwise
appends the row at the next slot. -/
def flatAdd (idx : FlatIndex) (v : List ℚ) : Option FlatIndex :=
  if v.length = idx.d then some ⟨idx.d, idx.xb ++ [v]⟩ else none

/-- Modelled from the external faiss library: IndexFlatL2.add of a stacked
batch of rows of a common width, which asserts that width equals the index
dimension and otherwise appends the rows in order. -/
def flatAddBatch (idx : FlatIndex) (vs : List (List ℚ)) : Option FlatIndex :=
  if vs.all (fun v => v.length == idx.d) then some ⟨idx.d, idx.xb ++ vs⟩ else none

/-- State of app/vector_store.py class FaissIndex: configured dimension, the
artifact path, the in-memory faiss index, the faiss-id to page-id dict, and
the next faiss id counter. -/
structure FaissIndex where
  dimension : Nat
  index_path : String
  index : FlatIndex
  id_map : List (Nat × Nat)
  next_faiss_id : Nat
deriving DecidableEq

/-- Constructor of FaissIndex: a fresh IndexFlatL2 of the given dimension, an
empty id map and a zero counter. -/
def FaissIndex.init (dimension : Nat) (index_path : String) : FaissIndex :=
  ⟨dimension, index_path, ⟨dimension, []⟩, [], 0⟩

/-- FaissIndex.add: append the vector to the faiss index (which raises on a
width mismatch, aborting before the dict is touched), then record the page id
at the current counter and advance the counter. -/
def FaissIndex.add (s : FaissIndex) (page_id : Nat) (vector : List ℚ) : Option FaissIndex :=
  (flatAdd s.index vector).map (fun idx2 =>
    { s with index := idx2,
             id_map := dictInsert s.id_map s.next_faiss_id page_id,
             next_faiss_id := s.next_faiss_id + 1 })

/-- Slot post-processing inside FaissIndex.search: the sentinel slot -1 is
skipped, and a slot missing from the id map (dict.get returns None) is
skipped as well; otherwise the slot is replaced by its page id. -/
def slotLookup (m : List (Nat × Nat)) (p : Int × ℚ) : Option (Nat × ℚ) :=
  if p.1 = -1 then none else (dictGet m p.1.toNat).map (fun pid => (pid, p.2))

/-- FaissIndex.search: run the faiss query, then keep, in faiss order, the
(page_id, distance) pairs of the returned slots that are mapped. -/
def FaissIndex.search (s : FaissIndex) (query_vector : List ℚ) (top_k : Int) :
    Option (List (Nat × ℚ)) :=
  (faissSearch s.index query_vector top_k).map (fun di =>
    di.filterMap (slotLookup s.id_map))

/-- Loop body of FaissIndex.build_from_db over rows (emb_id, page_id, vector):
a vector whose length differs from the configured dimension is skipped,
any other vector is collected and assigned the next faiss id in the dict. -/
def buildLoop (d : Nat) (rows : List (Nat × Nat × List ℚ)) (acc : List (List ℚ))
    (m : List (Nat × Nat)) (nx : Nat) : List (List ℚ) × List (Nat × Nat) × Nat :=
  match rows with
  | [] => (acc, m, nx)
  | r :: rest =>
    if r.2.2.length ≠ d then buildLoop d rest acc m nx
    else buildLoop d rest (acc ++ [r.2.2]) (dictInsert m nx r.2.1) (nx + 1)

/-- FaissIndex.build_from_db: on an empty row set return unchanged; otherwise
run the collection loop and, when any vectors were kept, add the stacked batch
to the existing faiss index (which asserts on a dimension mismatch between the
configured dimension and the index). The index is not reset first. -/
def FaissIndex.build_from_db (s : FaissIndex) (rows : List (Nat × Nat × List ℚ)) :
    Option FaissIndex :=
  if rows = [] then some s
  else
    let t := buildLoop s.dimension rows [] s.id_map s.next_faiss_id
    if t.1 = [] then some { s with id_map := t.2.1, next_faiss_id := t.2.2 }
    else (flatAddBatch s.index t.1).map (fun idx2 =>
      { s with index := idx2, id_map := t.2.1, next_faiss_id := t.2.2 })

/-- Modelled from the external faiss library and the spec requirement on the
artifact format: write_index serialises the index dimension, the vector count
and all vector values exactly (row-major). -/
structure IndexArtifact where
  d : Nat
  ntotal : Nat
  data : List ℚ
deriving DecidableEq

/-- FaissIndex.save_index: serialise the in-memory faiss index to the artifact. -/
def FaissIndex.save_index (s : FaissIndex) : IndexArtifact :=
  ⟨s.index.d, s.index.xb.length, s.index.xb.flatten⟩

/-- Rebuild the row-major vector list of a deserialised index. -/
def unflatten (d : Nat) (n : Nat) (flat : List ℚ) : List (List ℚ) :=
  match n with
  | 0 => []
  | n + 1 => flat.take d :: unflatten d n (flat.drop d)

/-- FaissIndex.load_index: replace the in-memory faiss index by the
deserialised artifact. No other attribute of the store is assigned. -/
def FaissIndex.load_index (s : FaissIndex) (a : IndexArtifact) : FaissIndex :=
  { s with index := ⟨a.d, unflatten a.d a.ntotal a.data⟩ }

/-- Sequence of FaissIndex.add calls, aborting at the first raised error. -/
def addSeq (s : FaissIndex) : List (Nat × List ℚ) → Option FaissIndex
  | [] => some s
  | op :: ops =>
    match s.add op.1 op.2 with
    | none => none
    | some s1 => addSeq s1 ops

/-- Row of the embeddings table as queried by crud.semantic_search:
embedding id, page id, the decoded float32 vector, and the model name. -/
structure EmbRow where
  emb_id : Nat
  page_id : Nat
  vec : List ℝ
  model_name : String

/-- Euclidean norm as computed by np.linalg.norm. -/
noncomputable def pyNorm (v : List ℝ) : ℝ :=
  Real.sqrt ((v.map (fun x => x ^ 2)).sum)

/-- Score of one row inside the crud.semantic_search loop: similarity 0 when
either norm is zero (computed before any dot product), otherwise the cosine
similarity; np.dot raises on a length mismatch, modelled as none. -/
noncomputable def rowScore (q : List ℝ) (r : EmbRow) : Option (Nat × ℝ) :=
  if pyNorm q = 0 ∨ pyNorm r.vec = 0 then some (r.page_id, 0)
  else if r.vec.length ≠ q.length then none
  else some (r.page_id,
    (List.zipWith (fun a b => a * b) q r.vec).sum / (pyNorm q * pyNorm r.vec))

/-- Result-building loop of crud.semantic_search: one score per row in table
order, aborting the whole call when a row raises. -/
noncomputable def scoreRows (q : List ℝ) : List EmbRow → Option (List (Nat × ℝ))
  | [] => some []
  | r :: rest =>
    match rowScore q r, scoreRows q rest with
    | some p, some ps => some (p :: ps)
    | _, _ => none

/-- Optional model-name filter of crud.semantic_search; python truthiness
makes the empty string behave like no filter. -/
def filterRows (rows : List EmbRow) (model_name : Option String) : List EmbRow :=
  match model_name with
  | none => rows
  | some m => if m = "" then rows else rows.filter (fun r => r.model_name == m)

/-- Stable descending insertion by score, the effect of list.sort with a key
and reverse=True: an element moves left past exactly the strictly smaller
scores, so equal scores keep their original relative order. -/
noncomputable def insDesc (x : Nat × ℝ) : List (Nat × ℝ) → List (Nat × ℝ)
  | [] => [x]
  | y :: ys => if x.2 < y.2 then y :: insDesc x ys else x :: y :: ys

/-- Stable sort of the scored results, descending by score. -/
noncomputable def sortDesc (l : List (Nat × ℝ)) : List (Nat × ℝ) := l.foldr insDesc []

/-- Python slice l[:k] semantics: a nonnegative stop takes a prefix, a
negative stop drops that many elements from the end. -/
def pySlice (k : Int) (l : List α) : List α :=
  if 0 ≤ k then l.take k.toNat else l.take (l.length - (-k).toNat)

/-- crud.semantic_search: filter the embeddings table by model name, return
an empty list when nothing matches, otherwise score every row with cosine
similarity, sort descending by score (stable) and slice the first top_k. -/
noncomputable def semantic_search (rows : List EmbRow) (query_vector : List ℝ)
    (model_name : Option String) (top_k : Int) : Option (List (Nat × ℝ)) :=
  let embeddings := filterRows rows model_name
  if embeddings.isEmpty then some []
  else (scoreRows query_vector embeddings).map (fun results =>
    pySlice top_k (sortDesc results))

/-- Relational store as seen by the insertion route: existing page ids and
the embeddings table rows (page id, decoded vector, model name). -/
structure Db where
  pages : List Nat
  embeddings : List (Nat × List ℚ × String)
deriving DecidableEq

/-- Whole application state around the insertion route: the relational store,
the shared in-memory FaissIndex instance, and the on-disk index artifact. -/
structure AppState where
  db : Db
  store : FaissIndex
  artifact : Option IndexArtifact
deriving DecidableEq

/-- crud.add_embedding: encode the vector and append a new row to the
embeddings table (the float32 blob round-trips the values, modelled exactly). -/
def add_embedding (db : Db) (page_id : Nat) (vector : List ℚ) (model_name : String) : Db :=
  { db with embeddings := db.embeddings ++ [(page_id, vector, model_name)] }

/-- Route handler add_page_embedding of app/api/routes.py: 404 when the page
does not exist, otherwise store the embedding row in the relational store and
return. No part of the handler touches the FaissIndex instance or the
artifact. -/
def add_page_embedding (st : AppState) (page_id : Nat) (vector : List ℚ)
    (model_name : String) : Except Nat AppState :=
  if page_id ∈ st.db.pages then
    Except.ok { st with db := add_embedding st.db page_id vector model_name }
  else Except.error 404

theorem insAsc_length (x : Nat × ℚ) (l : List (Nat × ℚ)) :
    (insAsc x l).length = l.length + 1 := by
  induction l with
  | nil => rfl
  | cons y ys ih =>
    simp only [insAsc]
    split
    · simp
    · simp only [List.length_cons, ih]

theorem sortDists_cons (x : Nat × ℚ) (l : List (Nat × ℚ)) :
    sortDists (x :: l) = insAsc x (sortDists l) := rfl

theorem sortDists_length (l : List (Nat × ℚ)) : (sortDists l).length = l.length := by
  induction l with
  | nil => rfl
  | cons x xs ih => rw [sortDists_cons, insAsc_length, ih, List.length_cons]

theorem mem_insAsc {y x : Nat × ℚ} {l : List (Nat × ℚ)} (h : y ∈ insAsc x l) :
    y = x ∨ y ∈ l := by
  induction l with
  | nil =>
    simp only [insAsc, List.mem_singleton] at h
    exact Or.inl h
  | cons z zs ih =>
    simp only [insAsc] at h
    split at h
    · rcases List.mem_cons.mp h with h1 | h2
      · exact Or.inl h1
      · exact Or.inr h2
    · rcases List.mem_cons.mp h with h1 | h2
      · exact Or.inr (by simp [h1])
      · rcases ih h2 with h3 | h4
        · exact Or.inl h3
        · exact Or.inr (List.mem_cons_of_mem _ h4)

theorem mem_sortDists {y : Nat × ℚ} {l : List (Nat × ℚ)} (h : y ∈ sortDists l) :
    y ∈ l := by
  induction l with
  | nil => simp [sortDists] at h
  | cons x xs ih =>
    rw [sortDists_cons] at h
    rcases mem_insAsc h with h1 | h2
    · simp [h1]
    · exact List.mem_cons_of_mem _ (ih h2)

theorem filterMap_length_all_some {α β : Type} (f : α → Option β) (l : List α)
    (h : ∀ x ∈ l, (f x).isSome = true) : (l.filterMap f).length = l.length := by
  induction l with
  | nil => rfl
  | cons x xs ih =>
    cases hx : f x with
    | none => exact absurd (h x (by simp)) (by simp [hx])
    | some y =>
      rw [List.filterMap_cons, hx, List.length_cons,
        ih (fun z hz => h z (List.mem_cons_of_mem _ hz))]
      rfl

theorem filterMap_eq_nil_of_none {α β : Type} (f : α → Option β) (l : List α)
    (h : ∀ x ∈ l, f x = none) : l.filterMap f = [] := by
  induction l with
  | nil => rfl
  | cons x xs ih =>
    rw [List.filterMap_cons, h x (by simp), ih (fun z hz => h z (List.mem_cons_of_mem _ hz))]

theorem filterMap_length_countP {α β : Type} (f : α → Option β) (l : List α) :
    (l.filterMap f).length = l.countP (fun x => (f x).isSome) := by
  induction l with
  | nil => rfl
  | cons x xs ih =>
    rw [List.filterMap_cons, List.countP_cons]
    rcases hx : f x with _ | y
    · simp [hx, ih]
    · simp [hx, ih]

theorem countP_ext {α : Type} (p q : α → Bool) (l : List α) (h : ∀ x, p x = q x) :
    l.countP p = l.countP q := by
  induction l with
  | nil => rfl
  | cons x xs ih => rw [List.countP_cons, List.countP_cons, h x, ih]

theorem dictInsert_fresh (m : List (Nat × Nat)) (k v : Nat)
    (h : ∀ p ∈ m, p.1 ≠ k) : dictInsert m k v = m ++ [(k, v)] := by
  unfold dictInsert
  rw [if_neg]
  simp only [List.any_eq_true, beq_iff_eq, not_exists, not_and]
  exact fun p hp => h p hp

theorem unflatten_flatten (d : Nat) (xs : List (List ℚ)) (h : ∀ v ∈ xs, v.length = d) :
    unflatten d xs.length xs.flatten = xs := by
  induction xs with
  | nil => rfl
  | cons v vs ih =>
    have hv : v.length = d := h v (by simp)
    simp only [List.flatten_cons, List.length_cons, unflatten]
    rw [← hv, List.take_left, List.drop_left]
    rw [hv, ih (fun w hw => h w (List.mem_cons_of_mem _ hw))]

/-- Concrete well-formed store with two vectors, used by several witnesses. -/
def storeB : FaissIndex :=
  ⟨1, "data/faiss_index.bin", ⟨1, [[0], [1]]⟩, [(0, 10), (1, 20)], 2⟩

/-- Concrete store whose faiss index holds two vectors but whose id map knows
only slot 0, so slot 1 is an orphan slot. -/
def storeOrphan : FaissIndex :=
  ⟨1, "data/faiss_index.bin", ⟨1, [[0], [7]]⟩, [(0, 10)], 1⟩

/-- Single-add step of the lockstep invariant: a successful add grows the id
map and the vector list by one entry each and keeps all dict keys below the
slot counter. -/
theorem add_preserves_lockstep (s s1 : FaissIndex) (pid : Nat) (v : List ℚ)
    (hP : s.id_map.length = s.index.xb.length)
    (hK : ∀ p ∈ s.id_map, p.1 < s.next_faiss_id)
    (h : s.add pid v = some s1) :
    (s1.id_map.length = s1.index.xb.length ∧
      ∀ p ∈ s1.id_map, p.1 < s1.next_faiss_id) := by
  unfold FaissIndex.add flatAdd at h
  by_cases hv : v.length = s.index.d
  · rw [if_pos hv] at h
    simp only [Option.map_some', Option.some.injEq] at h
    subst h
    have hfresh : dictInsert s.id_map s.next_faiss_id pid =
        s.id_map ++ [(s.next_faiss_id, pid)] :=
      dictInsert_fresh _ _ _ (fun p hp => Nat.ne_of_lt (hK p hp))
    refine ⟨?_, ?_⟩
    · simp [hfresh, hP]
    · intro p hp
      rw [hfresh] at hp
      rcases List.mem_append.mp hp with h1 | h2
      · exact Nat.lt_succ_of_lt (hK p h1)
      · simp only [List.mem_singleton] at h2
        simp [h2]
  · rw [if_neg hv] at h
    exact absurd h (by simp)

/-- C2 (amended): for every sequence of successful add calls starting from a
state satisfying the lockstep invariant with dict keys below the slot counter
(true of the initial store), the id-map size equals the vector count after
each call; the original claim also covered restore, which breaks the
invariant because load_index does not restore the id map. -/
theorem addSeq_preserves_lockstep (ops : List (Nat × List ℚ)) :
    ∀ s : FaissIndex, s.id_map.length = s.index.xb.length →
    (∀ p ∈ s.id_map, p.1 < s.next_faiss_id) →
    ∀ i t, addSeq s (ops.take i) = some t → t.id_map.length = t.index.xb.length := by
  induction ops with
  | nil =>
    intro s hP hK i t h
    simp only [List.take_nil, addSeq, Option.some.injEq] at h
    exact h ▸ hP
  | cons op rest ih =>
    intro s hP hK i t h
    cases i with
    | zero =>
      simp only [List.take_zero, addSeq, Option.some.injEq] at h
      exact h ▸ hP
    | succ j =>
      simp only [List.take_succ_cons, addSeq] at h
      cases hadd : s.add op.1 op.2 with
      | none => rw [hadd] at h; exact absurd h (by simp)
      | some s1 =>
        rw [hadd] at h
        obtain ⟨h1, h2⟩ := add_preserves_lockstep s s1 op.1 op.2 hP hK hadd
        exact ih s1 h1 h2 j t h

/-- Witness for C2: two successful adds from the initial store leave the map
size equal to the vector count. -/
theorem addSeq_preserves_lockstep_witness :
    (⟨1, "p", ⟨1, [[1], [2]]⟩, [(0, 5), (1, 6)], 2⟩ : FaissIndex).id_map.length =
      (⟨1, "p", ⟨1, [[1], [2]]⟩, [(0, 5), (1, 6)], 2⟩ : FaissIndex).index.xb.length :=
  addSeq_preserves_lockstep [(5, [1]), (6, [2])] (FaissIndex.init 1 "p") rfl
    (by simp [FaissIndex.init]) 2 _ rfl

/-- Counterexample for C2: add one vector, persist, then restore into a fresh
store of the same deployment; after the completed restore the map size is 0
while the vector count is 1, so the invariant does not hold after every
completed operation. -/
theorem restore_breaks_lockstep :
    ((FaissIndex.init 1 "p").add 5 [1]).map
      (fun s1 => (((FaissIndex.init 1 "q").load_index s1.save_index).id_map.length,
                  ((FaissIndex.init 1 "q").load_index s1.save_index).index.xb.length)) =
      some (0, 1) ∧ (0 : Nat) ≠ 1 :=
  ⟨rfl, by decide⟩

/-- C3: adding a vector whose length differs from the faiss index dimension
raises inside the index append, before the id map is touched, so the call
fails and no state component changes (the model returns none and the caller
keeps the previous state). -/
theorem add_rejects_wrong_dimension (s : FaissIndex) (page_id : Nat) (v : List ℚ)
    (h : v.length ≠ s.index.d) : s.add page_id v = none := by
  unfold FaissIndex.add flatAdd
  rw [if_neg h]
  rfl

/-- Witness for C3: a length-2 vector is rejected by the 768-dimensional
initial store. -/
theorem add_rejects_wrong_dimension_witness :
    ([(1 : ℚ), 2].length ≠ (FaissIndex.init 768 "p").index.d) ∧
    (FaissIndex.init 768 "p").add 7 [1, 2] = none :=
  ⟨by decide, add_rejects_wrong_dimension _ 7 [1, 2] (by decide)⟩

/-- C8 (amended): on an index holding zero vectors, search returns the empty
sequence for every query of the right width and every positive topK; but a
topK of zero or below fails the assertion in the faiss python wrapper and
raises instead of returning an empty sequence. -/
theorem search_empty_and_nonpositive_k :
    (∀ (s : FaissIndex) (q : List ℚ) (k : Int),
      s.index.xb = [] → q.length = s.index.d → 0 < k → s.search q k = some []) ∧
    (∀ (s : FaissIndex) (q : List ℚ) (k : Int), k ≤ 0 → s.search q k = none) := by
  constructor
  · intro s q k hxb hq hk
    unfold FaissIndex.search faissSearch
    rw [if_neg (by simp [hq]), if_neg (by omega)]
    rw [hxb]
    simp only [List.length_nil, List.range_zero, List.map_nil, sortDists,
      List.foldr_nil, List.take_nil, Nat.sub_zero, List.nil_append, Option.map_some',
      Option.some.injEq]
    apply filterMap_eq_nil_of_none
    intro x hx
    rw [List.eq_of_mem_replicate hx]
    rfl
  · intro s q k hk
    unfold FaissIndex.search faissSearch
    by_cases hq : q.length ≠ s.index.d
    · rw [if_pos hq]; rfl
    · rw [if_neg hq, if_pos hk]; rfl

/-- Witness for C8: both conjuncts at concrete inputs; an empty
3-dimensional store answers an arbitrary query with the empty list, and a
zero topK raises on a nonempty store. -/
theorem search_empty_and_nonpositive_k_witness :
    (FaissIndex.init 3 "p").search [0, 0, 0] 7 = some [] ∧
    storeB.search [0] 0 = none :=
  ⟨search_empty_and_nonpositive_k.1 (FaissIndex.init 3 "p") [0, 0, 0] 7 rfl rfl
      (by decide),
    search_empty_and_nonpositive_k.2 storeB [0] 0 (by decide)⟩

/-- Counterexample for C8: searching with a topK of -1 raises (the wrapper
asserts a positive k, and a negative k already breaks the result-array
allocation), an error result rather than the empty sequence the claim
requires for every topK at or below zero. -/
theorem search_k_nonpositive_raises :
    (FaissIndex.init 1 "p").search [0] (-1) = none ∧
    (FaissIndex.init 1 "p").search [0] (-1) ≠ some [] := by
  have h0 : (FaissIndex.init 1 "p").search [0] (-1) = none := rfl
  exact ⟨h0, by rw [h0]; simp⟩

/-- C10: load_index assigns only the index attribute, leaving the id map, the
slot counter, the configured dimension and the path untouched; consequently a
freshly constructed store that restores an arbitrary artifact has an empty id
map, and every search that returns at all returns the empty list. -/
theorem load_index_frame :
    (∀ (s : FaissIndex) (a : IndexArtifact),
      (s.load_index a).id_map = s.id_map ∧
      (s.load_index a).next_faiss_id = s.next_faiss_id ∧
      (s.load_index a).dimension = s.dimension ∧
      (s.load_index a).index_path = s.index_path) ∧
    (∀ (d : Nat) (p : String) (a : IndexArtifact) (q : List ℚ) (k : Int)
        (res : List (Nat × ℚ)),
      ((FaissIndex.init d p).load_index a).search q k = some res → res = []) := by
  constructor
  · exact fun s a => ⟨rfl, rfl, rfl, rfl⟩
  · intro d p a q k res h
    unfold FaissIndex.search at h
    cases hf : faissSearch ((FaissIndex.init d p).load_index a).index q k with
    | none => rw [hf] at h; exact absurd h (by simp)
    | some di =>
      rw [hf] at h
      simp only [Option.map_some', Option.some.injEq] at h
      subst h
      apply filterMap_eq_nil_of_none
      intro x hx
      show slotLookup [] x = none
      unfold slotLookup dictGet
      split
      · rfl
      · rfl

/-- Witness for C10: frame conditions at a concrete store and artifact, and
the empty-results consequence at a concrete restored fresh store whose
artifact holds one vector. -/
theorem load_index_frame_witness :
    ((storeB.load_index ⟨1, 1, [9]⟩).id_map = storeB.id_map ∧
      (storeB.load_index ⟨1, 1, [9]⟩).next_faiss_id = storeB.next_faiss_id ∧
      (storeB.load_index ⟨1, 1, [9]⟩).dimension = storeB.dimension ∧
      (storeB.load_index ⟨1, 1, [9]⟩).index_path = storeB.index_path) ∧
    ([] : List (Nat × ℚ)) = [] :=
  ⟨load_index_frame.1 storeB ⟨1, 1, [9]⟩,
    load_index_frame.2 1 "p" ⟨1, 1, [9]⟩ [0] 1 [] rfl⟩

/-- C4: persisting a store whose index rows all have the index width (true of
every store built through add or build_from_db) and then restoring the saved
artifact reproduces the store exactly, so every search afterwards returns the
same results in the same order as before. -/
theorem persist_restore_preserves_search (s : FaissIndex)
    (h : ∀ v ∈ s.index.xb, v.length = s.index.d) (q : List ℚ) (k : Int) :
    s.load_index s.save_index = s ∧
    (s.load_index s.save_index).search q k = s.search q k := by
  have hidx : s.load_index s.save_index = s := by
    unfold FaissIndex.load_index FaissIndex.save_index
    rw [unflatten_flatten s.index.d s.index.xb h]
  exact ⟨hidx, by rw [hidx]⟩

/-- Witness for C4: round-trip of a concrete two-vector store, search results
unchanged. -/
theorem persist_restore_preserves_search_witness :
    storeB.load_index storeB.save_index = storeB ∧
    (storeB.load_index storeB.save_index).search [0] 2 = storeB.search [0] 2 :=
  persist_restore_preserves_search storeB (by decide) [0] 2

/-- Vectors kept by the build_from_db loop: the rows whose vector length
matches the configured dimension, in input order. -/
def keptVecs (d : Nat) (rows : List (Nat × Nat × List ℚ)) : List (List ℚ) :=
  (rows.filter (fun r => r.2.2.length == d)).map (fun r => r.2.2)

theorem keptVecs_mem_length (d : Nat) (rows : List (Nat × Nat × List ℚ)) :
    ∀ v ∈ keptVecs d rows, v.length = d := by
  intro v hv
  obtain ⟨r, hr, rfl⟩ := List.mem_map.mp hv
  exact beq_iff_eq.mp (List.mem_filter.mp hr).2

theorem buildLoop_fst (d : Nat) (rows : List (Nat × Nat × List ℚ)) :
    ∀ acc m nx, (buildLoop d rows acc m nx).1 = acc ++ keptVecs d rows := by
  induction rows with
  | nil => intro acc m nx; simp [buildLoop, keptVecs]
  | cons r rest ih =>
    intro acc m nx
    by_cases hr : r.2.2.length = d
    · rw [show buildLoop d (r :: rest) acc m nx =
          buildLoop d rest (acc ++ [r.2.2]) (dictInsert m nx r.2.1) (nx + 1) by
        simp [buildLoop, hr]]
      rw [ih]
      simp [keptVecs, List.filter_cons, hr]
    · rw [show buildLoop d (r :: rest) acc m nx = buildLoop d rest acc m nx by
        simp [buildLoop, hr]]
      rw [ih]
      simp [keptVecs, List.filter_cons, hr]

theorem buildLoop_map (d : Nat) (rows : List (Nat × Nat × List ℚ)) :
    ∀ acc m nx, (∀ p ∈ m, p.1 < nx) →
    ((buildLoop d rows acc m nx).2.1.length = m.length + (keptVecs d rows).length ∧
      ∀ p ∈ (buildLoop d rows acc m nx).2.1, p.1 < (buildLoop d rows acc m nx).2.2) := by
  induction rows with
  | nil =>
    intro acc m nx hK
    refine ⟨?_, ?_⟩
    · simp [buildLoop, keptVecs]
    · simp only [buildLoop]
      exact hK
  | cons r rest ih =>
    intro acc m nx hK
    by_cases hr : r.2.2.length = d
    · rw [show buildLoop d (r :: rest) acc m nx =
          buildLoop d rest (acc ++ [r.2.2]) (dictInsert m nx r.2.1) (nx + 1) by
        simp [buildLoop, hr]]
      have hfresh : dictInsert m nx r.2.1 = m ++ [(nx, r.2.1)] :=
        dictInsert_fresh _ _ _ (fun p hp => Nat.ne_of_lt (hK p hp))
      have hK2 : ∀ p ∈ dictInsert m nx r.2.1, p.1 < nx + 1 := by
        intro p hp
        rw [hfresh] at hp
        rcases List.mem_append.mp hp with h1 | h2
        · exact Nat.lt_succ_of_lt (hK p h1)
        · simp only [List.mem_singleton] at h2
          simp [h2]
      obtain ⟨ih1, ih2⟩ := ih (acc ++ [r.2.2]) (dictInsert m nx r.2.1) (nx + 1) hK2
      refine ⟨?_, ih2⟩
      rw [ih1, hfresh]
      simp [keptVecs, List.filter_cons, hr]
      omega
    · rw [show buildLoop d (r :: rest) acc m nx = buildLoop d rest acc m nx by
        simp [buildLoop, hr]]
      obtain ⟨ih1, ih2⟩ := ih acc m nx hK
      refine ⟨?_, ih2⟩
      rw [ih1]
      simp [keptVecs, List.filter_cons, hr]

/-- C5 (amended): build_from_db does not reset the index; it appends, to the
existing vectors, exactly the rows whose vector length matches the configured
dimension, in input order, skipping the others without failing, and grows the
id map by one entry per kept row. The claimed behavior (result contains
exactly the well-dimensioned pairs) holds only when the store starts empty. -/
theorem build_from_db_appends (s : FaissIndex) (rows : List (Nat × Nat × List ℚ))
    (hd : s.dimension = s.index.d)
    (hK : ∀ p ∈ s.id_map, p.1 < s.next_faiss_id) :
    (s.build_from_db rows).map (fun r => r.index.xb) =
      some (s.index.xb ++ keptVecs s.dimension rows) ∧
    (s.build_from_db rows).map (fun r => r.id_map.length) =
      some (s.id_map.length + (keptVecs s.dimension rows).length) := by
  unfold FaissIndex.build_from_db
  by_cases hrows : rows = []
  · subst hrows
    simp [keptVecs]
  · rw [if_neg hrows]
    have h1 := buildLoop_fst s.dimension rows [] s.id_map s.next_faiss_id
    rw [List.nil_append] at h1
    obtain ⟨h2, _⟩ := buildLoop_map s.dimension rows [] s.id_map s.next_faiss_id hK
    by_cases hk : (buildLoop s.dimension rows [] s.id_map s.next_faiss_id).1 = []
    · rw [if_pos hk]
      rw [hk] at h1
      simp [← h1, h2]
    · rw [if_neg hk]
      have hbatch : flatAddBatch s.index
          (buildLoop s.dimension rows [] s.id_map s.next_faiss_id).1 =
          some ⟨s.index.d, s.index.xb ++
            (buildLoop s.dimension rows [] s.id_map s.next_faiss_id).1⟩ := by
        unfold flatAddBatch
        rw [if_pos]
        rw [List.all_eq_true]
        intro v hv
        rw [h1] at hv
        exact beq_iff_eq.mpr ((keptVecs_mem_length s.dimension rows v hv).trans hd)
      rw [hbatch]
      simp [h1, h2]

/-- Witness for C5: appending to the two-vector store a batch with one
matching row and one skipped row of the wrong width. -/
theorem build_from_db_appends_witness :
    (storeB.build_from_db [(1, 7, [3]), (2, 8, [4, 5])]).map (fun r => r.index.xb) =
      some (storeB.index.xb ++ keptVecs storeB.dimension [(1, 7, [3]), (2, 8, [4, 5])]) ∧
    (storeB.build_from_db [(1, 7, [3]), (2, 8, [4, 5])]).map (fun r => r.id_map.length) =
      some (storeB.id_map.length +
        (keptVecs storeB.dimension [(1, 7, [3]), (2, 8, [4, 5])]).length) :=
  build_from_db_appends storeB [(1, 7, [3]), (2, 8, [4, 5])] (by decide) (by decide)

/-- Counterexample for C5: building from a store that already holds one
vector yields both the old and the new vector, not only the input pairs, so
the index is not reset first. -/
theorem build_from_db_no_reset :
    ((FaissIndex.init 1 "p").add 5 [1]).map
      (fun s1 => (s1.build_from_db [(1, 7, [2])]).map (fun r => r.index.xb)) =
      some (some [[1], [2]]) ∧ [[(1 : ℚ)], [2]] ≠ [[(2 : ℚ)]] :=
  ⟨rfl, by simp⟩

/-- C7: on a store whose id map covers every slot (the lockstep invariant),
a query of the right width with topK strictly greater than the vector count
succeeds and returns exactly vectorCount results: the sentinel padding
entries are dropped and nothing is padded in. -/
theorem search_topk_exceeds_count (s : FaissIndex) (q : List ℚ) (k : Int)
    (hm : ∀ i, i < s.index.xb.length → (dictGet s.id_map i).isSome = true)
    (hq : q.length = s.index.d)
    (hk : (s.index.xb.length : Int) < k) :
    (s.search q k).map List.length = some s.index.xb.length := by
  unfold FaissIndex.search faissSearch
  rw [if_neg (by simp [hq]), if_neg (by omega)]
  simp only [Option.map_some', Option.some.injEq]
  rw [List.filterMap_append]
  have hrep : (List.replicate (k.toNat - s.index.xb.length)
      ((-1 : Int), (0 : ℚ))).filterMap (slotLookup s.id_map) = [] := by
    apply filterMap_eq_nil_of_none
    intro x hx
    rw [List.eq_of_mem_replicate hx]
    rfl
  rw [hrep, List.append_nil]
  have hmin : min k.toNat s.index.xb.length = s.index.xb.length := by omega
  have hlen : ((sortDists ((List.range s.index.xb.length).map
      (fun i => (i, sqDist q (s.index.xb.getD i []))))).take
        (min k.toNat s.index.xb.length)).length = s.index.xb.length := by
    rw [List.length_take, sortDists_length, List.length_map, List.length_range, hmin]
    omega
  rw [filterMap_length_all_some, List.length_map, hlen]
  intro x hx
  obtain ⟨p, hp, rfl⟩ := List.mem_map.mp hx
  have hp2 : p ∈ sortDists ((List.range s.index.xb.length).map
      (fun i => (i, sqDist q (s.index.xb.getD i [])))) :=
    List.mem_of_mem_take hp
  obtain ⟨i, hi, rfl⟩ := List.mem_map.mp (mem_sortDists hp2)
  have hin : i < s.index.xb.length := List.mem_range.mp hi
  unfold slotLookup
  rw [if_neg (by omega)]
  simp only [Int.toNat_ofNat]
  rw [Option.isSome_map']
  exact hm i hin

/-- Witness for C7: the two-vector store with topK 5 returns exactly two
results. -/
theorem search_topk_exceeds_count_witness :
    (storeB.search [0] 5).map List.length = some storeB.index.xb.length :=
  search_topk_exceeds_count storeB [0] 5 (by decide) rfl (by decide)

/-- C9: whenever the faiss query returns a slot list, search never raises: it
returns, in order, the mapped slots, and the result length counts exactly the
non-sentinel slots that have an id-map entry, so an orphan slot is silently
skipped without affecting the remaining results. -/
theorem search_skips_orphan_slots (s : FaissIndex) (q : List ℚ) (k : Int)
    (top : List (Int × ℚ)) (htop : faissSearch s.index q k = some top) :
    s.search q k = some (top.filterMap (slotLookup s.id_map)) ∧
    (top.filterMap (slotLookup s.id_map)).length =
      top.countP (fun p => decide (p.1 ≠ -1) && (dictGet s.id_map p.1.toNat).isSome) := by
  constructor
  · unfold FaissIndex.search
    rw [htop]
    rfl
  · rw [filterMap_length_countP]
    apply countP_ext
    intro p
    unfold slotLookup
    by_cases hp : p.1 = -1
    · simp [hp]
    · simp [hp, Option.isSome_map']

theorem faissSearch_orphan_eval :
    faissSearch storeOrphan.index [0] 2 = some [(0, 0), (1, 49)] := by
  norm_num [faissSearch, storeOrphan, sortDists, insAsc, sqDist, List.range_succ]

/-- Witness for C9: the orphan store answers a two-result query; slot 1 has
no id-map entry, so the count of mapped slots is 1 and exactly the slot-0
result survives. -/
theorem search_skips_orphan_slots_witness :
    storeOrphan.search [0] 2 =
      some ([((0 : Int), (0 : ℚ)), (1, 49)].filterMap (slotLookup storeOrphan.id_map)) ∧
    ([((0 : Int), (0 : ℚ)), (1, 49)].filterMap (slotLookup storeOrphan.id_map)).length =
      [((0 : Int), (0 : ℚ)), (1, 49)].countP
        (fun p => decide (p.1 ≠ -1) && (dictGet storeOrphan.id_map p.1.toNat).isSome) :=
  search_skips_orphan_slots storeOrphan [0] 2 [(0, 0), (1, 49)] faissSearch_orphan_eval

/-- Counterexample for C6: a concrete insertion request against a state whose
store is empty and whose artifact is absent; the handler succeeds, stores the
embedding row, and leaves the vector store with zero vectors and the artifact
absent, whereas the claim requires the store to have been grown by add and
the artifact to have been rewritten by persist. -/
theorem add_page_embedding_skips_vector_store :
    add_page_embedding ⟨⟨[1], []⟩, FaissIndex.init 1 "p", none⟩ 1 [2] "m" =
      Except.ok ⟨⟨[1], [(1, [2], "m")]⟩, FaissIndex.init 1 "p", none⟩ ∧
    (FaissIndex.init 1 "p").index.xb.length = 0 ∧ (0 : Nat) ≠ 1 := by
  refine ⟨?_, rfl, by decide⟩
  rfl

/-- C6 (amended): the insertion route only appends the embedding row to the
relational store; the in-memory vector store and the on-disk artifact are
left untouched by every request, successful or not — no add and no persist
happens per insertion (the faiss index is only written during startup). -/
theorem add_page_embedding_frame (st : AppState) (page_id : Nat) (v : List ℚ)
    (mn : String) (st2 : AppState)
    (h : add_page_embedding st page_id v mn = Except.ok st2) :
    st2.store = st.store ∧ st2.artifact = st.artifact ∧
    st2.db.pages = st.db.pages ∧
    st2.db.embeddings = st.db.embeddings ++ [(page_id, v, mn)] := by
  unfold add_page_embedding at h
  split at h
  · simp only [Except.ok.injEq] at h
    subst h
    exact ⟨rfl, rfl, rfl, rfl⟩
  · exact absurd h (by simp)

/-- Witness for C6: the frame conditions at the concrete insertion request. -/
theorem add_page_embedding_frame_witness :
    (⟨⟨[1], [(1, [2], "m")]⟩, FaissIndex.init 1 "p", none⟩ : AppState).store =
      (⟨⟨[1], []⟩, FaissIndex.init 1 "p", none⟩ : AppState).store ∧
    (⟨⟨[1], [(1, [2], "m")]⟩, FaissIndex.init 1 "p", none⟩ : AppState).artifact =
      (⟨⟨[1], []⟩, FaissIndex.init 1 "p", none⟩ : AppState).artifact ∧
    (⟨⟨[1], [(1, [2], "m")]⟩, FaissIndex.init 1 "p", none⟩ : AppState).db.pages =
      (⟨⟨[1], []⟩, FaissIndex.init 1 "p", none⟩ : AppState).db.pages ∧
    (⟨⟨[1], [(1, [2], "m")]⟩, FaissIndex.init 1 "p", none⟩ : AppState).db.embeddings =
      (⟨⟨[1], []⟩, FaissIndex.init 1 "p", none⟩ : AppState).db.embeddings ++
        [(1, [2], "m")] :=
  add_page_embedding_frame ⟨⟨[1], []⟩, FaissIndex.init 1 "p", none⟩ 1 [2] "m"
    ⟨⟨[1], [(1, [2], "m")]⟩, FaissIndex.init 1 "p", none⟩ rfl

theorem insDesc_mem {y x : Nat × ℝ} {l : List (Nat × ℝ)} (h : y ∈ insDesc x l) :
    y = x ∨ y ∈ l := by
  induction l with
  | nil =>
    simp only [insDesc, List.mem_singleton] at h
    exact Or.inl h
  | cons z zs ih =>
    simp only [insDesc] at h
    split at h
    · rcases List.mem_cons.mp h with h1 | h2
      · exact Or.inr (by simp [h1])
      · rcases ih h2 with h3 | h4
        · exact Or.inl h3
        · exact Or.inr (List.mem_cons_of_mem _ h4)
    · rcases List.mem_cons.mp h with h1 | h2
      · exact Or.inl h1
      · exact Or.inr h2

theorem sortDesc_cons (x : Nat × ℝ) (l : List (Nat × ℝ)) :
    sortDesc (x :: l) = insDesc x (sortDesc l) := rfl

theorem sortDesc_mem {y : Nat × ℝ} {l : List (Nat × ℝ)} (h : y ∈ sortDesc l) :
    y ∈ l := by
  induction l with
  | nil => simp [sortDesc] at h
  | cons x xs ih =>
    rw [sortDesc_cons] at h
    rcases insDesc_mem h with h1 | h2
    · simp [h1]
    · exact List.mem_cons_of_mem _ (ih h2)

theorem insDesc_sorted (x : Nat × ℝ) {l : List (Nat × ℝ)}
    (h : List.Sorted (fun a b : Nat × ℝ => b.2 ≤ a.2) l) :
    List.Sorted (fun a b : Nat × ℝ => b.2 ≤ a.2) (insDesc x l) := by
  induction l with
  | nil => simp [insDesc]
  | cons y ys ih =>
    rw [List.sorted_cons] at h
    obtain ⟨hy, hys⟩ := h
    simp only [insDesc]
    split
    · rw [List.sorted_cons]
      refine ⟨?_, ih hys⟩
      intro b hb
      rcases insDesc_mem hb with h1 | h2
      · rename_i hlt
        exact h1 ▸ le_of_lt hlt
      · exact hy b h2
    · rw [List.sorted_cons]
      refine ⟨?_, by rw [List.sorted_cons]; exact ⟨hy, hys⟩⟩
      intro b hb
      rename_i hge
      rcases List.mem_cons.mp hb with h1 | h2
      · exact h1 ▸ le_of_not_lt hge
      · exact le_trans (hy b h2) (le_of_not_lt hge)

theorem sortDesc_sorted (l : List (Nat × ℝ)) :
    List.Sorted (fun a b : Nat × ℝ => b.2 ≤ a.2) (sortDesc l) := by
  induction l with
  | nil => simp [sortDesc]
  | cons x xs ih =>
    rw [sortDesc_cons]
    exact insDesc_sorted x ih

theorem insDesc_perm (x : Nat × ℝ) (l : List (Nat × ℝ)) :
    (insDesc x l).Perm (x :: l) := by
  induction l with
  | nil => exact List.Perm.refl _
  | cons y ys ih =>
    simp only [insDesc]
    split
    · exact (List.Perm.cons y ih).trans (List.Perm.swap x y ys)
    · exact List.Perm.refl _

theorem sortDesc_perm (l : List (Nat × ℝ)) : (sortDesc l).Perm l := by
  induction l with
  | nil => exact List.Perm.refl _
  | cons x xs ih =>
    rw [sortDesc_cons]
    exact (insDesc_perm x (sortDesc xs)).trans (List.Perm.cons x ih)

theorem insDesc_filter (x : Nat × ℝ) (c : ℝ) (l : List (Nat × ℝ))
    (hl : List.Sorted (fun a b : Nat × ℝ => b.2 ≤ a.2) l) :
    (insDesc x l).filter (fun p => decide (p.2 = c)) =
      if x.2 = c then x :: l.filter (fun p => decide (p.2 = c))
      else l.filter (fun p => decide (p.2 = c)) := by
  induction l with
  | nil =>
    simp only [insDesc, List.filter_cons, List.filter_nil]
    by_cases hx : x.2 = c
    · simp [hx]
    · simp [hx]
  | cons y ys ih =>
    rw [List.sorted_cons] at hl
    obtain ⟨hy, hys⟩ := hl
    simp only [insDesc]
    split
    · rename_i hlt
      rw [List.filter_cons, List.filter_cons, ih hys]
      by_cases hx : x.2 = c
      · have hyc : ¬(y.2 = c) := by
          rw [← hx]
          exact ne_of_gt hlt
        simp [hx, hyc]
      · by_cases hyc : y.2 = c
        · simp [hx, hyc]
        · simp [hx, hyc]
    · rw [List.filter_cons, List.filter_cons]
      by_cases hx : x.2 = c
      · simp [hx]
      · simp [hx]

theorem sortDesc_stable (l : List (Nat × ℝ)) (c : ℝ) :
    (sortDesc l).filter (fun p => decide (p.2 = c)) =
      l.filter (fun p => decide (p.2 = c)) := by
  induction l with
  | nil => rfl
  | cons x xs ih =>
    rw [sortDesc_cons, insDesc_filter x c (sortDesc xs) (sortDesc_sorted xs),
      List.filter_cons]
    by_cases hx : x.2 = c
    · simp [hx, ih]
    · simp [hx, ih]

theorem pySlice_eq_take {α : Type} (k : Int) (l : List α) :
    pySlice k l = l.take (if 0 ≤ k then k.toNat else l.length - (-k).toNat) := by
  unfold pySlice
  split
  · rfl
  · rfl

theorem scoreRows_mem {q : List ℝ} {rows : List EmbRow} :
    ∀ {l : List (Nat × ℝ)}, scoreRows q rows = some l →
      ∀ p ∈ l, ∃ r ∈ rows, rowScore q r = some p := by
  induction rows with
  | nil =>
    intro l h p hp
    simp only [scoreRows, Option.some.injEq] at h
    subst h
    simp at hp
  | cons r rest ih =>
    intro l h p hp
    simp only [scoreRows] at h
    cases hr : rowScore q r with
    | none => rw [hr] at h; exact absurd h (by simp)
    | some pr =>
      rw [hr] at h
      cases hs : scoreRows q rest with
      | none => rw [hs] at h; exact absurd h (by simp)
      | some ps =>
        rw [hs] at h
        simp only [Option.some.injEq] at h
        subst h
        rcases List.mem_cons.mp hp with h1 | h2
        · exact ⟨r, by simp, by rw [hr, h1]⟩
        · obtain ⟨r2, hr2, hsc⟩ := ih hs p h2
          exact ⟨r2, List.mem_cons_of_mem _ hr2, hsc⟩

theorem scoreRows_forall2 {q : List ℝ} {rows : List EmbRow} :
    ∀ {l : List (Nat × ℝ)}, scoreRows q rows = some l →
      List.Forall₂ (fun r p => rowScore q r = some p) rows l := by
  induction rows with
  | nil =>
    intro l h
    simp only [scoreRows, Option.some.injEq] at h
    subst h
    exact List.Forall₂.nil
  | cons r rest ih =>
    intro l h
    simp only [scoreRows] at h
    cases hr : rowScore q r with
    | none => rw [hr] at h; exact absurd h (by simp)
    | some pr =>
      rw [hr] at h
      cases hs : scoreRows q rest with
      | none => rw [hs] at h; exact absurd h (by simp)
      | some ps =>
        rw [hs] at h
        simp only [Option.some.injEq] at h
        subst h
        exact List.Forall₂.cons hr (ih hs)

/-- C1 (amended): the similarity search serving the API, crud.semantic_search,
scores every matching row with cosine similarity — one score per row, in
table order (the Forall₂ conjunct) — sorts all the scores descending by
similarity (larger is more similar) as a permutation of the full score list,
keeps ties in table order (the filter conjunct: for every score value, the
equal-score entries appear exactly as in the table), and truncates the sorted
list to topK (a take of length min topK n for nonnegative topK). Each
returned pair is the cosine score of some matching row; nothing is sorted
ascending by squared Euclidean distance. -/
theorem semanticSearch_cosine_descending (rows : List EmbRow) (q : List ℝ)
    (mn : Option String) (k : Int) (res : List (Nat × ℝ))
    (h : semantic_search rows q mn k = some res) :
    ∃ scores : List (Nat × ℝ),
      scoreRows q (filterRows rows mn) = some scores ∧
      List.Forall₂ (fun r p => rowScore q r = some p) (filterRows rows mn) scores ∧
      (sortDesc scores).Perm scores ∧
      List.Sorted (fun a b : Nat × ℝ => b.2 ≤ a.2) (sortDesc scores) ∧
      (∀ c : ℝ, (sortDesc scores).filter (fun p => decide (p.2 = c)) =
        scores.filter (fun p => decide (p.2 = c))) ∧
      res = pySlice k (sortDesc scores) ∧
      List.Sorted (fun a b : Nat × ℝ => b.2 ≤ a.2) res ∧
      (∀ p ∈ res, ∃ r ∈ filterRows rows mn, rowScore q r = some p) ∧
      (0 ≤ k → res = (sortDesc scores).take k.toNat ∧
        res.length = min k.toNat scores.length) := by
  unfold semantic_search at h
  by_cases he : (filterRows rows mn).isEmpty
  · rw [if_pos he] at h
    simp only [Option.some.injEq] at h
    subst h
    have hemp : filterRows rows mn = [] := by
      cases hfe : filterRows rows mn with
      | nil => rfl
      | cons a l => rw [hfe] at he; simp at he
    refine ⟨[], ?_, ?_, List.Perm.refl _, List.sorted_nil, fun c => rfl, ?_,
      List.sorted_nil, by simp, fun hk => ⟨by simp [sortDesc], by simp [sortDesc]⟩⟩
    · rw [hemp]; rfl
    · rw [hemp]; exact List.Forall₂.nil
    · rw [pySlice_eq_take]; simp [sortDesc]
  · rw [if_neg he] at h
    cases hs : scoreRows q (filterRows rows mn) with
    | none => rw [hs] at h; exact absurd h (by simp)
    | some results =>
      rw [hs] at h
      simp only [Option.map_some', Option.some.injEq] at h
      subst h
      refine ⟨results, rfl, scoreRows_forall2 hs, sortDesc_perm results,
        sortDesc_sorted results, fun c => sortDesc_stable results c, rfl, ?_, ?_, ?_⟩
      · rw [pySlice_eq_take]
        exact List.Pairwise.sublist (List.take_sublist _ _) (sortDesc_sorted results)
      · intro p hp
        rw [pySlice_eq_take] at hp
        exact scoreRows_mem hs p (sortDesc_mem (List.mem_of_mem_take hp))
      · intro hk
        constructor
        · rw [pySlice_eq_take, if_pos hk]
        · rw [pySlice_eq_take, if_pos hk, List.length_take,
            (sortDesc_perm results).length_eq]

/-- Concrete embeddings table for the C1 evaluation: page 11 carries a scaled
copy of the query direction, page 22 a nearby different direction. -/
noncomputable def rowsC : List EmbRow :=
  [⟨1, 11, [30, 40], "m"⟩, ⟨2, 22, [4, 3], "m"⟩]

theorem pyNorm_two (a b c : ℝ) (hc : 0 ≤ c) (h : a ^ 2 + b ^ 2 = c ^ 2) :
    pyNorm [a, b] = c := by
  unfold pyNorm
  simp only [List.map_cons, List.map_nil, List.sum_cons, List.sum_nil, add_zero]
  rw [h]
  exact Real.sqrt_sq hc

theorem semanticSearchEval :
    semantic_search rowsC [3, 4] none 2 = some [(11, 1), (22, 24 / 25)] := by
  have h34 : pyNorm [(3 : ℝ), 4] = 5 := pyNorm_two 3 4 5 (by norm_num) (by norm_num)
  have h3040 : pyNorm [(30 : ℝ), 40] = 50 := pyNorm_two 30 40 50 (by norm_num) (by norm_num)
  have h43 : pyNorm [(4 : ℝ), 3] = 5 := pyNorm_two 4 3 5 (by norm_num) (by norm_num)
  norm_num [semantic_search, rowsC, filterRows, scoreRows, rowScore, h34, h3040, h43,
    sortDesc, insDesc, pySlice]

/-- Witness for C1: the amended theorem applied at the concrete table and
query used by the counterexample. -/
theorem semanticSearch_cosine_descending_witness :
    ∃ scores : List (Nat × ℝ),
      scoreRows [3, 4] (filterRows rowsC none) = some scores ∧
      List.Forall₂ (fun r p => rowScore [3, 4] r = some p) (filterRows rowsC none) scores ∧
      (sortDesc scores).Perm scores ∧
      List.Sorted (fun a b : Nat × ℝ => b.2 ≤ a.2) (sortDesc scores) ∧
      (∀ c : ℝ, (sortDesc scores).filter (fun p => decide (p.2 = c)) =
        scores.filter (fun p => decide (p.2 = c))) ∧
      [((11 : Nat), (1 : ℝ)), (22, 24 / 25)] = pySlice 2 (sortDesc scores) ∧
      List.Sorted (fun a b : Nat × ℝ => b.2 ≤ a.2) [((11 : Nat), (1 : ℝ)), (22, 24 / 25)] ∧
      (∀ p ∈ [((11 : Nat), (1 : ℝ)), (22, 24 / 25)], ∃ r ∈ filterRows rowsC none,
        rowScore [3, 4] r = some p) ∧
      ((0 : Int) ≤ 2 →
        [((11 : Nat), (1 : ℝ)), (22, 24 / 25)] = (sortDesc scores).take (2 : Int).toNat ∧
        ([((11 : Nat), (1 : ℝ)), (22, 24 / 25)]).length = min (2 : Int).toNat scores.length) :=
  semanticSearch_cosine_descending rowsC [3, 4] none 2 [(11, 1), (22, 24 / 25)]
    semanticSearchEval

/-- Counterexample for C1: at this table and query, squared Euclidean
distances are 2 for page 22 and 2025 for page 11, so the claim mandates the
output ((22, 2), (11, 2025)) in ascending order; the code returns cosine
similarities in descending order, page 11 first, with different scores. -/
theorem semanticSearch_not_l2_ascending :
    semantic_search rowsC [3, 4] none 2 = some [(11, 1), (22, 24 / 25)] ∧
    semantic_search rowsC [3, 4] none 2 ≠ some [(22, 2), (11, 2025)] := by
  refine ⟨semanticSearchEval, ?_⟩
  rw [semanticSearchEval]
  intro h
  simp only [Option.some.injEq, List.cons.injEq, Prod.mk.injEq] at h
  exact absurd h.1.1 (by norm_num)

